import Mathlib

/-!
Verification of the worktree setup script (scripts/setup-worktree.py).

The script is a sequential orchestration tool: it locates the main
repository, creates a new worktree, copies environment files (with
template-variable substitution), installs dependencies and runs
verification checks.  All of its logic is pure string processing and
branching on filesystem / subprocess outcomes, which we embed shallowly:
strings become List Char, the filesystem and the outcomes of external
commands become explicit oracle parameters, and each Python function
becomes a Lean function of the same name.
-/

namespace SetupWorktree

/-- The double-quote character (used by value.strip in the Python source). -/
def dquote : Char := Char.ofNat 34

/-- The single-quote character (used by value.strip in the Python source). -/
def squote : Char := Char.ofNat 39

/-- The opening curly-brace character of a template placeholder. -/
def lbrace : Char := Char.ofNat 123

/-- The closing curly-brace character of a template placeholder. -/
def rbrace : Char := Char.ofNat 125

/-- Python str.strip with a single stripped-character predicate: removes all
leading and all trailing characters satisfying p. -/
def stripP (p : Char → Bool) (s : List Char) : List Char :=
  ((s.dropWhile p).reverse.dropWhile p).reverse

/-- Python str.strip() : remove surrounding whitespace. -/
def stripWs (s : List Char) : List Char := stripP Char.isWhitespace s

/-- Python str.strip(c) for a one-character argument: remove every leading and
trailing occurrence of c (matching of an opening and a closing quote is NOT
required by Python). -/
def stripChar (c : Char) (s : List Char) : List Char := stripP (fun d => d == c) s

/-- Python line.split(eq, 1) restricted to lines that contain the separator:
returns the part before the first equals sign and the part after it, or none
when the line has no equals sign at all. -/
def splitFirstEq : List Char → Option (List Char × List Char)
  | [] => none
  | c :: rest =>
    if c = '=' then some ([], rest)
    else
      match splitFirstEq rest with
      | none => none
      | some (k, v) => some (c :: k, v)

/-- Insertion-ordered dictionary update, as for a Python dict: an existing key
is overwritten in place, a new key is appended at the end. -/
def updateAssoc {α β : Type} [DecidableEq α] : List (α × β) → α → β → List (α × β)
  | [], k, v => [(k, v)]
  | p :: rest, k, v => if p.1 = k then (k, v) :: rest else p :: updateAssoc rest k v

/-- Lookup in an insertion-ordered dictionary. -/
def lookupAssoc {α β : Type} [DecidableEq α] : List (α × β) → α → Option β
  | [], _ => none
  | p :: rest, k => if p.1 = k then some p.2 else lookupAssoc rest k

/-- One loop iteration of _validate_env_file: the accumulator holds the
variables parsed so far and the line numbers that produced a warning; the
entry is the 1-based line number together with the raw line. -/
def processLine (acc : List (List Char × List Char) × List Nat) (entry : Nat × List Char) :
    List (List Char × List Char) × List Nat :=
  let line := stripWs entry.2
  if line = [] then acc
  else if line.head? = some '#' then acc
  else
    match splitFirstEq line with
    | some (k, v) =>
        (updateAssoc acc.1 (stripWs k) (stripChar squote (stripChar dquote (stripWs v))), acc.2)
    | none => (acc.1, acc.2 ++ [entry.1])

/-- Embeds _validate_env_file: parse the lines of an environment file into a
key/value mapping, recording one warning (by line number) per line that is
neither blank, nor a comment, nor of key=value shape. -/
def validate_env_file (lines : List (List Char)) : List (List Char × List Char) × List Nat :=
  (List.enumFrom 1 lines).foldl processLine ([], [])

/-- Does the first list occur as a prefix of the second? (List analogue of
the prefix test performed by Python str.replace while scanning.) -/
def startsWithL : List Char → List Char → Bool
  | [], _ => true
  | _ :: _, [] => false
  | p :: ps, c :: cs => p == c && startsWithL ps cs

/-- Python content.replace(pat, val) for a nonempty pattern: scan left to
right; on a match emit val and resume after the matched text (replaced text
is never rescanned); matches never overlap. -/
def replaceAll (s pat val : List Char) : List Char :=
  match s with
  | [] => []
  | c :: rest =>
    if h : pat ≠ [] ∧ startsWithL pat (c :: rest) = true then
      val ++ replaceAll (List.drop pat.length (c :: rest)) pat val
    else
      c :: replaceAll rest pat val
termination_by s.length
decreasing_by
  · have hp : 0 < pat.length := List.length_pos.mpr h.1
    simp only [List.length_drop, List.length_cons]
    omega
  · simp only [List.length_cons]
    omega

/-- The greedy, left-to-right split of s along the occurrences of pat: the
list of maximal pat-free segments between consecutive matches.  Matches are
found exactly as replaceAll finds them. -/
def splitOnL (s pat : List Char) : List (List Char) :=
  match s with
  | [] => [[]]
  | c :: rest =>
    if h : pat ≠ [] ∧ startsWithL pat (c :: rest) = true then
      [] :: splitOnL (List.drop pat.length (c :: rest)) pat
    else
      match splitOnL rest pat with
      | [] => [[c]]
      | q :: t => (c :: q) :: t
termination_by s.length
decreasing_by
  · have hp : 0 < pat.length := List.length_pos.mpr h.1
    simp only [List.length_drop, List.length_cons]
    omega
  · simp only [List.length_cons]
    omega

/-- Join a list of segments, placing sep between consecutive segments. -/
def joinWith (sep : List Char) : List (List Char) → List Char
  | [] => []
  | [x] => x
  | x :: y :: t => x ++ sep ++ joinWith sep (y :: t)

/-- Does pat occur anywhere in the second list? -/
def occursIn (pat : List Char) : List Char → Bool
  | [] => pat.isEmpty
  | c :: rest => startsWithL pat (c :: rest) || occursIn pat rest

/-- The placeholder text built by the Python f-string: two opening braces, a
space, the key, a space, two closing braces. -/
def placeholder (key : List Char) : List Char :=
  lbrace :: lbrace :: ' ' :: (key ++ [' ', rbrace, rbrace])

/-- Embeds _substitute_template_variables: for each (key, value) pair in insertion
order, replace every occurrence of the placeholder of key by value in the
current content. -/
def substitute_template_variables (content : List Char) (subs : List (List Char × List Char)) :
    List Char :=
  subs.foldl (fun c kv => replaceAll c (placeholder kv.1) kv.2) content

/-- The fixed ordered list of candidate environment files. -/
def env_files : List String :=
  [".env", ".env.local", ".env.development", ".env.production", ".env.test", ".env.example"]

/-- The filesystem state relevant to copy_env_files: contents of the files in
the main repository root, an oracle saying whether processing a given file
hits an I/O error (read or write failure, caught by the per-file handler),
and the contents of the files in the new worktree. -/
structure CopyWorld where
  mainFs : String → Option (List Char)
  ioError : String → Bool
  wtFs : String → Option (List Char)

/-- One iteration of the copy_env_files loop over a single filename: a
missing source is skipped with a warning, an I/O error is caught and logged
without copying, and otherwise the substituted content is written to the
worktree and the filename is appended to the copied list. -/
def copyStep (vars : List (List Char × List Char)) (st : CopyWorld × List String) (f : String) :
    CopyWorld × List String :=
  match st.1.mainFs f with
  | none => st
  | some content =>
    if st.1.ioError f then st
    else
      ({ st.1 with
          wtFs := fun g =>
            if g = f then some (substitute_template_variables content vars) else st.1.wtFs g },
        st.2 ++ [f])

/-- copy_env_files : iterate over the fixed environment-file list, returning
the updated worktree state and the list of successfully copied filenames. -/
def copy_env_files (vars : List (List Char × List Char)) (w : CopyWorld) :
    CopyWorld × List String :=
  env_files.foldl (copyStep vars) (w, [])

/-- Embeds _detect_package_manager: priority chain over the files present in the
worktree. -/
def detect_package_manager (ex : String → Bool) : Option String :=
  if ex "package-lock.json" then some "npm"
  else if ex "yarn.lock" then some "yarn"
  else if ex "pnpm-lock.yaml" then some "pnpm"
  else if ex "package.json" then some "npm"
  else none

/-- The external commands the script can invoke. -/
inductive Cmd
  | gitShowRef (branch : String)
  | gitWorktreeAdd (path : String) (branch : String)
  | gitWorktreeAddNew (branch : String) (path : String)
  | pmInstall (pm : String)
  | npxTsc
  | npmRunLint

/-- Embeds _branch_exists: run git show-ref and report whether it succeeded. -/
def branch_exists (exec : Cmd → Bool) (b : String) : Bool := exec (Cmd.gitShowRef b)

/-- create_worktree : refuse immediately when the destination path exists
(invoking nothing), otherwise check whether the branch exists and run the
corresponding worktree-add command.  Returns the success flag together with
the trace of external commands that were invoked. -/
def create_worktree (exec : Cmd → Bool) (pathExists : Bool) (branch path : String) :
    Bool × List Cmd :=
  if pathExists then (false, [])
  else if branch_exists exec branch then
    (exec (Cmd.gitWorktreeAdd path branch), [Cmd.gitShowRef branch, Cmd.gitWorktreeAdd path branch])
  else
    (exec (Cmd.gitWorktreeAddNew branch path),
      [Cmd.gitShowRef branch, Cmd.gitWorktreeAddNew branch path])

/-- install_dependencies : detect the package manager; when none is found
warn and return failure without invoking anything, otherwise run its install
command and return its exit status. -/
def install_dependencies (exec : Cmd → Bool) (ex : String → Bool) : Bool :=
  match detect_package_manager ex with
  | none => false
  | some pm => exec (Cmd.pmInstall pm)

/-- verify_setup : the result mapping, in insertion order.  The scripts
argument is the outcome of parsing package.json (none models a JSON decode
error); tscOk and lintOk are the exit statuses of the type check and the
lint run. -/
def verify_setup (pj nm ts tsc : Bool) (scripts : Option (List String)) (lintOk : Bool) :
    List (String × Bool) :=
  [("package_json", pj), ("node_modules", nm)]
    ++ (if ts then [("typescript_check", tsc)] else [])
    ++ (if pj then
          match scripts with
          | none => [("lint_check", false)]
          | some l => if l.contains "lint" then [("lint_check", lintOk)] else []
        else [])

/-- How the body of main's try block terminates: normally, by a keyboard
interrupt, or by an unexpected exception. -/
inductive RunEvent
  | completes
  | interrupted
  | unexpectedError

/-- The process exit code of main: 1 when the current directory is not a git
repository (the locator calls sys.exit(1) before the try block), 1 when the
run is interrupted or an unexpected error escapes, 1 when worktree creation
fails, and 0 when the flow completes; the results of dependency installation
and of the verification checks are computed but never consulted for the exit
code. -/
def mainExitCode (repoOk : Bool) (exec : Cmd → Bool) (pathExists : Bool) (branch path : String)
    (wtFiles : String → Bool) (scripts : Option (List String)) (skipInstall skipVerify : Bool)
    (ev : RunEvent) : Nat :=
  if repoOk = false then 1
  else
    match ev with
    | RunEvent.interrupted => 1
    | RunEvent.unexpectedError => 1
    | RunEvent.completes =>
      if (create_worktree exec pathExists branch path).1 = false then 1
      else
        let _inst : Bool := if skipInstall then false else install_dependencies exec wtFiles
        let _ver : List (String × Bool) :=
          if skipVerify then []
          else
            verify_setup (wtFiles "package.json") (wtFiles "node_modules")
              (wtFiles "tsconfig.json") (exec Cmd.npxTsc) scripts (exec Cmd.npmRunLint)
        0

/-- Modelled from the claim wording only (not from the source), for
comparison with the source behavior: remove exactly one matching layer of
surrounding double or single quotes from a value, if such a layer is
present. -/
def stripQuotesSpec (v : List Char) : List Char :=
  if 2 ≤ v.length ∧ v.head? = some dquote ∧ v.getLast? = some dquote then (v.drop 1).dropLast
  else if 2 ≤ v.length ∧ v.head? = some squote ∧ v.getLast? = some squote then (v.drop 1).dropLast
  else v

/-- A successful prefix test decomposes the scanned list into the pattern
followed by the remainder. -/
theorem startsWithL_decomp (pat : List Char) :
    ∀ s, startsWithL pat s = true → s = pat ++ List.drop pat.length s := by
  induction pat with
  | nil => intro s _; simp
  | cons p ps ih =>
    intro s h
    cases s with
    | nil => simp [startsWithL] at h
    | cons c cs =>
      simp only [startsWithL, Bool.and_eq_true, beq_iff_eq] at h
      obtain ⟨rfl, h2⟩ := h
      simpa using congrArg (p :: ·) (ih cs h2)

/-- splitOnL never returns an empty list of segments. -/
theorem splitOnL_ne_nil (s pat : List Char) : splitOnL s pat ≠ [] := by
  rw [splitOnL.eq_def]
  cases s with
  | nil => simp
  | cons c rest =>
    dsimp only
    by_cases h : pat ≠ [] ∧ startsWithL pat (c :: rest) = true
    · simp [h]
    · rw [dif_neg h]
      split <;> simp

/-- Prepending a character to the first segment prepends it to the join. -/
theorem joinWith_cons_cons (sep : List Char) (c : Char) (q : List Char) (t : List (List Char)) :
    joinWith sep ((c :: q) :: t) = c :: joinWith sep (q :: t) := by
  cases t <;> simp [joinWith]

/-- Joining the segments of s with the pattern itself recovers s: splitOnL
finds a genuine decomposition of s along the occurrences of pat. -/
theorem joinWith_splitOnL_aux :
    ∀ (n : Nat) (s pat : List Char), s.length ≤ n → joinWith pat (splitOnL s pat) = s := by
  intro n
  induction n with
  | zero =>
    intro s pat hs
    have hnil : s = [] := List.eq_nil_of_length_eq_zero (Nat.le_zero.mp hs)
    subst hnil
    rw [splitOnL.eq_def]
    simp [joinWith]
  | succ n ih =>
    intro s pat hs
    rw [splitOnL.eq_def]
    cases s with
    | nil => simp [joinWith]
    | cons c rest =>
      dsimp only
      by_cases h : pat ≠ [] ∧ startsWithL pat (c :: rest) = true
      · rw [dif_pos h]
        have hp : 0 < pat.length := List.length_pos.mpr h.1
        have hlen : (List.drop pat.length (c :: rest)).length ≤ n := by
          simp only [List.length_drop, List.length_cons]
          simp only [List.length_cons] at hs
          omega
        have ihs := ih (List.drop pat.length (c :: rest)) pat hlen
        obtain ⟨q, t, hqt⟩ :
            ∃ q t, splitOnL (List.drop pat.length (c :: rest)) pat = q :: t := by
          cases hsplit : splitOnL (List.drop pat.length (c :: rest)) pat with
          | nil => exact absurd hsplit (splitOnL_ne_nil _ _)
          | cons q t => exact ⟨q, t, rfl⟩
        rw [hqt] at ihs ⊢
        show [] ++ pat ++ joinWith pat (q :: t) = c :: rest
        rw [List.nil_append, ihs]
        exact (startsWithL_decomp pat (c :: rest) h.2).symm
      · rw [dif_neg h]
        have hlen : rest.length ≤ n := by
          simp only [List.length_cons] at hs
          omega
        have ihs := ih rest pat hlen
        obtain ⟨q, t, hqt⟩ : ∃ q t, splitOnL rest pat = q :: t := by
          cases hsplit : splitOnL rest pat with
          | nil => exact absurd hsplit (splitOnL_ne_nil _ _)
          | cons q t => exact ⟨q, t, rfl⟩
        rw [hqt] at ihs ⊢
        show joinWith pat ((c :: q) :: t) = c :: rest
        rw [joinWith_cons_cons, ihs]

/-- Joining the segments of s with the pattern recovers s. -/
theorem joinWith_splitOnL (s pat : List Char) : joinWith pat (splitOnL s pat) = s :=
  joinWith_splitOnL_aux s.length s pat (le_refl _)

/-- replaceAll rebuilds s from its pat-segments with val in place of every
occurrence of pat. -/
theorem replaceAll_joinWith_aux :
    ∀ (n : Nat) (s pat val : List Char), s.length ≤ n →
      replaceAll s pat val = joinWith val (splitOnL s pat) := by
  intro n
  induction n with
  | zero =>
    intro s pat val hs
    have hnil : s = [] := List.eq_nil_of_length_eq_zero (Nat.le_zero.mp hs)
    subst hnil
    rw [replaceAll.eq_def, splitOnL.eq_def]
    simp [joinWith]
  | succ n ih =>
    intro s pat val hs
    rw [replaceAll.eq_def, splitOnL.eq_def]
    cases s with
    | nil => simp [joinWith]
    | cons c rest =>
      dsimp only
      by_cases h : pat ≠ [] ∧ startsWithL pat (c :: rest) = true
      · rw [dif_pos h, dif_pos h]
        have hp : 0 < pat.length := List.length_pos.mpr h.1
        have hlen : (List.drop pat.length (c :: rest)).length ≤ n := by
          simp only [List.length_drop, List.length_cons]
          simp only [List.length_cons] at hs
          omega
        have ihs := ih (List.drop pat.length (c :: rest)) pat val hlen
        obtain ⟨q, t, hqt⟩ :
            ∃ q t, splitOnL (List.drop pat.length (c :: rest)) pat = q :: t := by
          cases hsplit : splitOnL (List.drop pat.length (c :: rest)) pat with
          | nil => exact absurd hsplit (splitOnL_ne_nil _ _)
          | cons q t => exact ⟨q, t, rfl⟩
        rw [hqt] at ihs ⊢
        show val ++ replaceAll (List.drop pat.length (c :: rest)) pat val
          = [] ++ val ++ joinWith val (q :: t)
        rw [ihs, List.nil_append]
      · rw [dif_neg h, dif_neg h]
        have hlen : rest.length ≤ n := by
          simp only [List.length_cons] at hs
          omega
        have ihs := ih rest pat val hlen
        obtain ⟨q, t, hqt⟩ : ∃ q t, splitOnL rest pat = q :: t := by
          cases hsplit : splitOnL rest pat with
          | nil => exact absurd hsplit (splitOnL_ne_nil _ _)
          | cons q t => exact ⟨q, t, rfl⟩
        rw [hqt] at ihs ⊢
        show c :: replaceAll rest pat val = joinWith val ((c :: q) :: t)
        rw [joinWith_cons_cons, ihs]

/-- replaceAll equals joining the pat-segments of s with val. -/
theorem replaceAll_joinWith (s pat val : List Char) :
    replaceAll s pat val = joinWith val (splitOnL s pat) :=
  replaceAll_joinWith_aux s.length s pat val (le_refl _)

/-- When the pattern does not occur anywhere in s, the split is trivial. -/
theorem splitOnL_of_not_occurs :
    ∀ (s pat : List Char), occursIn pat s = false → splitOnL s pat = [s] := by
  intro s pat
  induction s with
  | nil =>
    intro _
    rw [splitOnL.eq_def]
  | cons c rest ih =>
    intro h
    simp only [occursIn, Bool.or_eq_false_iff] at h
    rw [splitOnL.eq_def]
    dsimp only
    have hcond : ¬(pat ≠ [] ∧ startsWithL pat (c :: rest) = true) := by
      intro hc
      rw [h.1] at hc
      exact Bool.false_ne_true hc.2
    rw [dif_neg hcond]
    rw [ih h.2]

/-- splitFirstEq splits on the FIRST equals sign: on a list of the shape
k ++ = :: v with no equals sign inside k it returns exactly (k, v). -/
theorem splitFirstEq_append (k v : List Char) (hk : ¬ '=' ∈ k) :
    splitFirstEq (k ++ '=' :: v) = some (k, v) := by
  induction k with
  | nil => simp [splitFirstEq]
  | cons c k2 ih =>
    have hc : c ≠ '=' := by
      intro hc
      exact hk (hc ▸ List.mem_cons_self c k2)
    have hk2 : ¬ '=' ∈ k2 := fun hm => hk (List.mem_cons_of_mem c hm)
    simp [splitFirstEq, hc, ih hk2]

/-- Updating a key and then looking it up yields the new value: a later
duplicate key overwrites the earlier binding. -/
theorem lookup_update {α β : Type} [DecidableEq α] :
    ∀ (m : List (α × β)) (k : α) (v : β), lookupAssoc (updateAssoc m k v) k = some v := by
  intro m k v
  induction m with
  | nil => simp [updateAssoc, lookupAssoc]
  | cons p rest ih =>
    by_cases h : p.1 = k
    · simp [updateAssoc, lookupAssoc, h]
    · simp [updateAssoc, lookupAssoc, h, ih]

/-- The copy loop never touches the source filesystem or the error oracle. -/
theorem copyFold_ro (vars : List (List Char × List Char)) :
    ∀ (l : List String) (st : CopyWorld × List String),
      (l.foldl (copyStep vars) st).1.mainFs = st.1.mainFs
      ∧ (l.foldl (copyStep vars) st).1.ioError = st.1.ioError := by
  intro l
  induction l with
  | nil => intro st; exact ⟨rfl, rfl⟩
  | cons f t ih =>
    intro st
    have hstep : (copyStep vars st f).1.mainFs = st.1.mainFs
        ∧ (copyStep vars st f).1.ioError = st.1.ioError := by
      unfold copyStep
      cases st.1.mainFs f with
      | none => exact ⟨rfl, rfl⟩
      | some content =>
        by_cases h : st.1.ioError f = true
        · simp [h]
        · simp [h]
    have := ih (copyStep vars st f)
    rw [List.foldl_cons]
    exact ⟨this.1.trans hstep.1, this.2.trans hstep.2⟩

/-- The accumulated copied list is the accumulator followed by the filter of
the remaining filenames by "source present and no I/O error". -/
theorem copyFold_copied (vars : List (List Char × List Char)) :
    ∀ (l : List String) (st : CopyWorld × List String),
      (l.foldl (copyStep vars) st).2
        = st.2 ++ l.filter (fun f => (st.1.mainFs f).isSome && !(st.1.ioError f)) := by
  intro l
  induction l with
  | nil => intro st; simp
  | cons f t ih =>
    intro st
    rw [List.foldl_cons]
    rw [ih (copyStep vars st f)]
    have hro : (copyStep vars st f).1.mainFs = st.1.mainFs
        ∧ (copyStep vars st f).1.ioError = st.1.ioError := by
      unfold copyStep
      cases st.1.mainFs f with
      | none => exact ⟨rfl, rfl⟩
      | some content =>
        by_cases h : st.1.ioError f = true
        · simp [h]
        · simp [h]
    rw [hro.1, hro.2]
    cases hsrc : st.1.mainFs f with
    | none =>
      have hstep : (copyStep vars st f).2 = st.2 := by
        unfold copyStep
        rw [hsrc]
      rw [hstep]
      rw [List.filter_cons]
      simp [hsrc]
    | some content =>
      by_cases herr : st.1.ioError f = true
      · have hstep : (copyStep vars st f).2 = st.2 := by
          unfold copyStep
          rw [hsrc]
          simp [herr]
        rw [hstep]
        rw [List.filter_cons]
        simp [hsrc, herr]
      · have hstep : (copyStep vars st f).2 = st.2 ++ [f] := by
          unfold copyStep
          rw [hsrc]
          simp [herr]
        rw [hstep]
        rw [List.filter_cons]
        simp [hsrc, herr]

/-- The worktree contents after the copy loop: every filename of the list
whose source exists and raises no I/O error holds the substituted source
content, every other file is untouched. -/
theorem copyFold_wtFs (vars : List (List Char × List Char)) :
    ∀ (l : List String) (st : CopyWorld × List String) (g : String),
      (l.foldl (copyStep vars) st).1.wtFs g
        = if g ∈ l ∧ (st.1.mainFs g).isSome = true ∧ st.1.ioError g = false
          then (st.1.mainFs g).map (fun c => substitute_template_variables c vars)
          else st.1.wtFs g := by
  intro l
  induction l with
  | nil =>
    intro st g
    simp
  | cons f t ih =>
    intro st g
    rw [List.foldl_cons]
    rw [ih (copyStep vars st f) g]
    have hro : (copyStep vars st f).1.mainFs = st.1.mainFs
        ∧ (copyStep vars st f).1.ioError = st.1.ioError := by
      unfold copyStep
      cases st.1.mainFs f with
      | none => exact ⟨rfl, rfl⟩
      | some content =>
        by_cases h : st.1.ioError f = true
        · simp [h]
        · simp [h]
    rw [hro.1, hro.2]
    by_cases hgt : g ∈ t
    · have hmem : g ∈ f :: t := List.mem_cons_of_mem f hgt
      by_cases hok : (st.1.mainFs g).isSome = true ∧ st.1.ioError g = false
      · simp [hgt, hok, hmem]
      · have hwt : (copyStep vars st f).1.wtFs g = st.1.wtFs g := by
          unfold copyStep
          cases hsrc : st.1.mainFs f with
          | none => rfl
          | some content =>
            by_cases herr : st.1.ioError f = true
            · simp [herr]
            · simp only [herr]
              by_cases hgf : g = f
              · subst hgf
                exfalso
                apply hok
                refine ⟨by rw [hsrc]; rfl, by simpa using herr⟩
              · simp [hgf]
        simp only [hgt, true_and]
        rw [if_neg hok, if_neg (by intro hc; exact hok hc.2), hwt]
    · by_cases hgf : g = f
      · subst hgf
        by_cases hok : (st.1.mainFs g).isSome = true ∧ st.1.ioError g = false
        · have hwt : (copyStep vars st g).1.wtFs g
              = (st.1.mainFs g).map (fun c => substitute_template_variables c vars) := by
            unfold copyStep
            obtain ⟨content, hsrc⟩ := Option.isSome_iff_exists.mp hok.1
            rw [hsrc]
            simp only [hok.2]
            simp [hsrc]
          rw [if_neg (by intro hc; exact hgt hc.1), hwt]
          rw [if_pos ⟨List.mem_cons_self g t, hok⟩]
        · have hwt : (copyStep vars st g).1.wtFs g = st.1.wtFs g := by
            unfold copyStep
            cases hsrc : st.1.mainFs g with
            | none => rfl
            | some content =>
              by_cases herr : st.1.ioError g = true
              · simp [herr]
              · exfalso
                apply hok
                refine ⟨by rw [hsrc]; rfl, by simpa using herr⟩
          rw [if_neg (by intro hc; exact hgt hc.1), hwt]
          rw [if_neg (by intro hc; exact hok hc.2)]
      · have hmem : ¬ g ∈ f :: t := by
          intro hc
          cases hc with
          | head => exact hgf rfl
          | tail _ hm => exact hgt hm
        have hwt : (copyStep vars st f).1.wtFs g = st.1.wtFs g := by
          unfold copyStep
          cases hsrc : st.1.mainFs f with
          | none => rfl
          | some content =>
            by_cases herr : st.1.ioError f = true
            · simp [herr]
            · simp [herr, hgf]
        rw [if_neg (by intro hc; exact hgt hc.1), hwt]
        rw [if_neg (by intro hc; exact hmem hc.1)]

/-- C2 counterexample: the claim says the parser strips exactly one matching
layer of surrounding quotes from the value.  On the line K="v the value has
an unmatched leading double quote, so the claimed behavior (stripQuotesSpec,
written from the claim) leaves it unchanged, but the code (Python
value.strip of the quote character, which needs no matching) removes it:
the recorded value is v, not "v. -/
theorem C2_counterexample :
    (validate_env_file ["K=\"v".toList]).1 = [("K".toList, "v".toList)]
  ∧ stripQuotesSpec "\"v".toList = "\"v".toList
  ∧ "v".toList ≠ "\"v".toList :=
  ⟨by decide, by decide, by decide⟩

/-- C2 (amended): for every input line containing an equals sign (and not
skipped as blank or comment), the parser splits on the FIRST equals sign,
trims both sides, removes ALL leading and trailing double-quote characters
and then ALL leading and trailing single-quote characters from the value
(matching is not required), and records key -> value; a later duplicate key
overwrites the earlier one. -/
theorem C2_parse_line (raw k v : List Char) (m : List (List Char × List Char))
    (w : List Nat) (n : Nat)
    (hsplit : stripWs raw = k ++ '=' :: v) (hk : ¬ '=' ∈ k)
    (hhash : (stripWs raw).head? ≠ some '#') :
    processLine (m, w) (n, raw)
      = (updateAssoc m (stripWs k) (stripChar squote (stripChar dquote (stripWs v))), w)
  ∧ ∀ (m2 : List (List Char × List Char)) (k2 v2 : List Char),
      lookupAssoc (updateAssoc m2 k2 v2) k2 = some v2 := by
  constructor
  · have hne : (k ++ '=' :: v) ≠ [] := by
      cases k <;> simp
    rw [hsplit] at hhash
    unfold processLine
    simp only [hsplit]
    rw [if_neg hne, if_neg hhash]
    rw [splitFirstEq_append k v hk]
  · intro m2 k2 v2
    exact lookup_update m2 k2 v2

/-- C2 witness: the amended per-line behavior at the concrete line
" A = 1 ". -/
theorem C2_witness :
    processLine ([], ([] : List Nat)) (1, " A = 1 ".toList)
      = (updateAssoc []
          (stripWs "A ".toList)
          (stripChar squote (stripChar dquote (stripWs " 1".toList))), []) :=
  (C2_parse_line " A = 1 ".toList "A ".toList " 1".toList [] [] 1
    (by decide) (by decide) (by decide)).1

/-- C3: substitution replaces every literal occurrence of the placeholder of
each key (two braces, one interior space each side, the exact key) by the
corresponding value.  The theorem states: the exact placeholder shape; that
pairs are processed in insertion order, one whole pass of the content per
pair; that the content decomposes along the placeholder occurrences and the
replacement joins exactly those segments with the value (so every occurrence
is replaced, non-recursively, in one pass); and that content without the
placeholder is left verbatim (so unmatched placeholders survive). -/
theorem C3_substitution (content k v : List Char) (vars : List (List Char × List Char)) :
    placeholder k = lbrace :: lbrace :: ' ' :: (k ++ [' ', rbrace, rbrace])
  ∧ substitute_template_variables content ((k, v) :: vars)
      = substitute_template_variables (replaceAll content (placeholder k) v) vars
  ∧ joinWith (placeholder k) (splitOnL content (placeholder k)) = content
  ∧ replaceAll content (placeholder k) v = joinWith v (splitOnL content (placeholder k))
  ∧ (occursIn (placeholder k) content = false →
       replaceAll content (placeholder k) v = content) := by
  refine ⟨rfl, rfl, joinWith_splitOnL content (placeholder k),
    replaceAll_joinWith content (placeholder k) v, ?_⟩
  intro h
  rw [replaceAll_joinWith, splitOnL_of_not_occurs content (placeholder k) h]
  rfl

/-- C3 witness: a placeholder for a different key is left verbatim. -/
theorem C3_witness :
    replaceAll (placeholder "Z".toList) (placeholder "K".toList) "x".toList
      = placeholder "Z".toList :=
  (C3_substitution (placeholder "Z".toList) "K".toList "x".toList []).2.2.2.2 (by decide)

/-- C4: when the destination path already exists, create_worktree returns
failure with an empty command trace: no external command is invoked, hence
no filesystem or repository state is changed. -/
theorem C4_existing_path (exec : Cmd → Bool) (branch path : String) :
    create_worktree exec true branch path = (false, []) := rfl

/-- C5: package-manager detection checks, in priority order, the npm
lockfile, then the yarn lockfile, then the pnpm lockfile, then the manifest
(defaulting to npm), and otherwise reports none; in particular a yarn
lockfile wins over a present manifest, the manifest alone yields npm, and no
file at all yields none. -/
theorem C5_detection (ex : String → Bool) :
    (ex "package-lock.json" = true → detect_package_manager ex = some "npm")
  ∧ (ex "package-lock.json" = false → ex "yarn.lock" = true →
       detect_package_manager ex = some "yarn")
  ∧ (ex "package-lock.json" = false → ex "yarn.lock" = false →
       ex "pnpm-lock.yaml" = true → detect_package_manager ex = some "pnpm")
  ∧ (ex "package-lock.json" = false → ex "yarn.lock" = false →
       ex "pnpm-lock.yaml" = false → ex "package.json" = true →
       detect_package_manager ex = some "npm")
  ∧ (ex "package-lock.json" = false → ex "yarn.lock" = false →
       ex "pnpm-lock.yaml" = false → ex "package.json" = false →
       detect_package_manager ex = none) := by
  unfold detect_package_manager
  refine ⟨?_, ?_, ?_, ?_, ?_⟩ <;> intros <;> simp [*]

/-- C5 witness: a yarn lockfile yields yarn even though the manifest is also
present. -/
theorem C5_witness :
    detect_package_manager (fun f => f == "yarn.lock" || f == "package.json") = some "yarn" :=
  (C5_detection (fun f => f == "yarn.lock" || f == "package.json")).2.1 (by decide) (by decide)

/-- C8: on the five-line example file the parser returns exactly the two
bindings FOO -> bar and BAZ -> quoted and emits exactly one warning, for the
malformed fifth line. -/
theorem C8_example_file :
    validate_env_file
        ["FOO=bar".toList, "# comment".toList, "".toList,
          "BAZ=\"quoted\"".toList, "malformed_no_equals".toList]
      = ([("FOO".toList, "bar".toList), ("BAZ".toList, "quoted".toList)], [5]) := by
  decide

/-- C10: the verification mapping always contains the keys package_json and
node_modules, bound to the existence of the respective artifact, even when
that existence is false. -/
theorem C10_unconditional_keys (pj nm ts tsc lintOk : Bool) (scripts : Option (List String)) :
    lookupAssoc (verify_setup pj nm ts tsc scripts lintOk) "package_json" = some pj
  ∧ lookupAssoc (verify_setup pj nm ts tsc scripts lintOk) "node_modules" = some nm := by
  constructor <;> simp [verify_setup, lookupAssoc]

/-- C1 counterexample: the claim says the mapping never contains a lintCheck
entry when the manifest declares no lint script.  But when package.json
exists and fails to parse (scripts outcome none, the JSON decode error) --
so in particular no lint script is declared -- the code records
lint_check = false in the mapping. -/
theorem C1_counterexample :
    lookupAssoc (verify_setup true false false false none false) "lint_check" = some false := by
  decide

/-- C1 (amended): the mapping never contains a typescript_check entry when
no tsconfig.json exists, and never contains a lint_check entry when no
package.json exists, or when the manifest parses successfully and its
scripts do not include a lint entry.  (When the manifest exists but fails to
parse, lint_check is recorded as false.) -/
theorem C1_conditional_keys (pj nm ts tsc lintOk : Bool) (scripts : Option (List String)) :
    (ts = false →
       lookupAssoc (verify_setup pj nm ts tsc scripts lintOk) "typescript_check" = none)
  ∧ (pj = false →
       lookupAssoc (verify_setup pj nm ts tsc scripts lintOk) "lint_check" = none)
  ∧ (∀ l, scripts = some l → l.contains "lint" = false →
       lookupAssoc (verify_setup pj nm ts tsc scripts lintOk) "lint_check" = none) := by
  refine ⟨?_, ?_, ?_⟩
  · rintro rfl
    cases pj <;> rcases scripts with _ | l <;>
      simp [verify_setup, lookupAssoc] <;>
      split <;> simp [lookupAssoc]
  · rintro rfl
    cases ts <;> simp [verify_setup, lookupAssoc]
  · rintro l rfl hc
    have hm : ¬ "lint" ∈ l := by simpa using hc
    cases pj <;> cases ts <;> simp [verify_setup, lookupAssoc, hm]

/-- C1 witness: a parsed manifest without a lint script yields no lint_check
entry even though tsconfig.json and package.json are present. -/
theorem C1_witness :
    lookupAssoc (verify_setup true true true true (some ["build"]) true) "lint_check" = none :=
  (C1_conditional_keys true true true true true (some ["build"])).2.2 ["build"] rfl (by decide)

/-- C6: the exit code is 0 exactly when the locator succeeded, the try block
completes, and worktree creation succeeded; it is 1 in every other case (not
a repository, creation failure, interrupt, unexpected error).  Moreover the
exit code does not depend on the worktree files, the manifest parse, the
skip flags, or the outcomes of the install / type-check / lint commands. -/
theorem C6_exit_codes (repoOk pathExists skipI skipV : Bool) (exec : Cmd → Bool)
    (branch path : String) (wtFiles : String → Bool) (scripts : Option (List String))
    (ev : RunEvent) :
    (mainExitCode repoOk exec pathExists branch path wtFiles scripts skipI skipV ev = 0 ↔
       repoOk = true ∧ ev = RunEvent.completes
         ∧ (create_worktree exec pathExists branch path).1 = true)
  ∧ (mainExitCode repoOk exec pathExists branch path wtFiles scripts skipI skipV ev = 1 ↔
       ¬(repoOk = true ∧ ev = RunEvent.completes
           ∧ (create_worktree exec pathExists branch path).1 = true))
  ∧ (∀ (wtFiles2 : String → Bool) (scripts2 : Option (List String)) (skipI2 skipV2 : Bool),
       mainExitCode repoOk exec pathExists branch path wtFiles2 scripts2 skipI2 skipV2 ev
         = mainExitCode repoOk exec pathExists branch path wtFiles scripts skipI skipV ev)
  ∧ (∀ exec2 : Cmd → Bool,
       exec2 (Cmd.gitShowRef branch) = exec (Cmd.gitShowRef branch) →
       exec2 (Cmd.gitWorktreeAdd path branch) = exec (Cmd.gitWorktreeAdd path branch) →
       exec2 (Cmd.gitWorktreeAddNew branch path) = exec (Cmd.gitWorktreeAddNew branch path) →
       mainExitCode repoOk exec2 pathExists branch path wtFiles scripts skipI skipV ev
         = mainExitCode repoOk exec pathExists branch path wtFiles scripts skipI skipV ev) := by
  refine ⟨?_, ?_, ?_, ?_⟩
  · cases repoOk <;> cases ev <;>
      cases hc : (create_worktree exec pathExists branch path).1 <;>
      simp [mainExitCode, hc]
  · cases repoOk <;> cases ev <;>
      cases hc : (create_worktree exec pathExists branch path).1 <;>
      simp [mainExitCode, hc]
  · intro wtFiles2 scripts2 skipI2 skipV2
    cases repoOk <;> cases ev <;>
      cases hc : (create_worktree exec pathExists branch path).1 <;>
      simp [mainExitCode, hc]
  · intro exec2 h1 h2 h3
    cases repoOk <;> cases ev <;> cases pathExists <;>
      simp [mainExitCode, create_worktree, branch_exists, h1, h2, h3]

/-- C6 witness: a failing install command does not change the exit code. -/
theorem C6_witness :
    mainExitCode true
        (fun c => match c with | Cmd.pmInstall _ => false | _ => true)
        false "b" "p" (fun _ => false) none false false RunEvent.completes
      = mainExitCode true (fun _ => true)
        false "b" "p" (fun _ => false) none false false RunEvent.completes :=
  (C6_exit_codes true false false false (fun _ => true) "b" "p" (fun _ => false) none
      RunEvent.completes).2.2.2
    (fun c => match c with | Cmd.pmInstall _ => false | _ => true) rfl rfl rfl

/-- C7: the copied list is exactly the filter of the fixed environment-file
list by "source exists and no I/O error", in list order; hence every listed
file had an existing source and no error, each entry appears at most once,
and an I/O error on one file does not affect whether any other file is
copied. -/
theorem C7_copy_results (vars : List (List Char × List Char)) (w : CopyWorld) :
    (copy_env_files vars w).2
        = env_files.filter (fun f => (w.mainFs f).isSome && !(w.ioError f))
  ∧ (∀ f, f ∈ (copy_env_files vars w).2 →
       (w.mainFs f).isSome = true ∧ w.ioError f = false)
  ∧ (∀ f, (copy_env_files vars w).2.count f ≤ 1)
  ∧ (∀ (w2 : CopyWorld) (f : String), w2.mainFs = w.mainFs →
       (∀ g, g ≠ f → w2.ioError g = w.ioError g) →
       ∀ g, g ≠ f →
         (g ∈ (copy_env_files vars w2).2 ↔ g ∈ (copy_env_files vars w).2)) := by
  have hcp : ∀ w3 : CopyWorld, (copy_env_files vars w3).2
      = env_files.filter (fun f => (w3.mainFs f).isSome && !(w3.ioError f)) := by
    intro w3
    unfold copy_env_files
    rw [copyFold_copied vars env_files (w3, [])]
    simp
  refine ⟨hcp w, ?_, ?_, ?_⟩
  · intro f hf
    rw [hcp w] at hf
    have hp := List.mem_filter.mp hf |>.2
    have hp2 := Bool.and_eq_true _ _ |>.mp hp
    exact ⟨hp2.1, by simpa using hp2.2⟩
  · intro f
    rw [hcp w]
    calc (env_files.filter fun f => (w.mainFs f).isSome && !(w.ioError f)).count f
        ≤ env_files.count f := (List.filter_sublist env_files).count_le f
      _ ≤ 1 := List.nodup_iff_count_le_one.mp (by decide) f
  · intro w2 f hmain herr g hg
    rw [hcp w, hcp w2]
    simp only [List.mem_filter]
    rw [hmain, herr g hg]

/-- C7 witness: in a world where only the .env source exists and no error
occurs, the membership conjunct certifies source existence and absence of
error for the copied .env file. -/
theorem C7_witness :
    ((CopyWorld.mk (fun f => if f = ".env" then some ['A'] else none) (fun _ => false)
        (fun _ => none)).mainFs ".env").isSome = true
  ∧ (CopyWorld.mk (fun f => if f = ".env" then some ['A'] else none) (fun _ => false)
      (fun _ => none)).ioError ".env" = false :=
  (C7_copy_results []
      (CopyWorld.mk (fun f => if f = ".env" then some ['A'] else none) (fun _ => false)
        (fun _ => none))).2.1 ".env" (by decide)

/-- C9: copying the environment files twice with identical inputs yields
identical worktree contents: the pipeline reads only the main repository,
substitutes deterministically, and overwrites the destination. -/
theorem C9_idempotent (vars : List (List Char × List Char)) (w : CopyWorld) :
    ((copy_env_files vars (copy_env_files vars w).1).1).wtFs
      = ((copy_env_files vars w).1).wtFs := by
  funext g
  have hro := copyFold_ro vars env_files (w, [])
  have h1 := copyFold_wtFs vars env_files (w, []) g
  have h2 := copyFold_wtFs vars env_files ((copy_env_files vars w).1, []) g
  unfold copy_env_files at h2 ⊢
  rw [hro.1, hro.2] at h2
  rw [h2]
  by_cases hc : g ∈ env_files ∧ (w.mainFs g).isSome = true ∧ w.ioError g = false
  · rw [if_pos hc, h1, if_pos hc]
  · rw [if_neg hc]

end SetupWorktree
